import Mathlib

/-!
Verification of the pickle/unpickle save-game codec in `src/src/LuaSerializer.cpp`.

The embedding models the Lua value universe as an explicit tagged union
(`LuaValue`), the Lua value stack as an explicit `List LuaValue`, and the
byte buffers as `List Char` (one `Char` per byte; the pickle format is
ASCII plus raw string payloads).  The libc scanning primitives the decoder
relies on (`strtod`, `strtol`, `strchr`) are modelled at their interface on
the inputs this codec produces and consumes.  The decoder is fuel-indexed
and structurally recursive on the fuel (the wrapper supplies fuel that every
terminating run provably stays under), so every concrete run reduces inside
the kernel.
-/

set_option maxHeartbeats 1000000
set_option linter.unnecessarySeqFocus false
set_option linter.unusedVariables false

attribute [local semireducible] Rat.add Rat.mul Rat.inv Rat.sub

deriving instance DecidableEq for Except

/-- The NUL byte: the terminator of the C strings the decoder scans, and the
byte at which the encoder's C-string operations (`strlen`, `operator+=`) stop. -/
def nulc : Char := Char.ofNat 0

/-- ASCII decimal digit test, as used by the `strtod`/`strtol` scans. -/
def isDig (c : Char) : Bool := 48 ≤ c.toNat && c.toNat ≤ 57

/-- Numeric value of a run of ASCII digits, most significant digit first. -/
def digitsVal (l : List Char) : Nat := l.foldl (fun a c => 10 * a + (c.toNat - 48)) 0

/-- Decimal digit to its ASCII character (total; digits above 9 never arise). -/
def digitChar (d : Nat) : Char :=
  match d with
  | 0 => '0' | 1 => '1' | 2 => '2' | 3 => '3' | 4 => '4'
  | 5 => '5' | 6 => '6' | 7 => '7' | 8 => '8' | _ => '9'

/-- Fuel-indexed decimal rendering of a natural number (digits of `snprintf`'s
`%d`/`%u`); fuel `n + 1` always suffices. -/
def natDecAux (fuel n : Nat) : List Char :=
  match fuel with
  | 0 => []
  | f + 1 => if n < 10 then [digitChar n] else natDecAux f (n / 10) ++ [digitChar (n % 10)]

/-- Canonical decimal rendering of a natural number. -/
def natDecChars (n : Nat) : List Char := natDecAux (n + 1) n

/-- `snprintf("%d", m)`: sign then decimal digits. -/
def intDecChars (m : Int) : List Char :=
  if m < 0 then '-' :: natDecChars m.natAbs else natDecChars m.natAbs

/-- Left-pad a digit run with zeros to width `w` (the fixed 6 fractional
digits printed by `%f`). -/
def padZero (w : Nat) (l : List Char) : List Char := List.replicate (w - l.length) '0' ++ l

/-- The digits of `snprintf("%f")` for the value `m / 10^6`: optional sign,
integer digits, a dot, then exactly six fractional digits. -/
def fmtMicro (m : Int) : List Char :=
  (if m < 0 then ['-'] else []) ++
    natDecChars (m.natAbs / 1000000) ++ '.' :: padZero 6 (natDecChars (m.natAbs % 1000000))

/-- The number printed by `%f`, as a scaled integer: the double rounded to six
decimal places.  Exact whenever the value already lies on the `10^-6` grid,
which is the precision the chosen float-text format keeps. -/
def microOf (q : ℚ) : ℤ := round (q * 1000000)

/-- `snprintf(buf, sizeof(buf), "f%f\n", lua_tonumber(l, idx))` of the number
branch of `LuaSerializer::pickle` (LuaSerializer.cpp:63).  Models the `%f`
text of the double; the 256-byte `buf` truncation could only matter for
magnitudes of 10^248 and above. -/
def fmtF (q : ℚ) : List Char := 'f' :: fmtMicro (microOf q) ++ ['\n']

/-- Concrete simulation-object kind of a resolved Body, as classified by
`body->GetType()` during decode (LuaSerializer.cpp:228-249).  `otherType`
stands for any type outside the six recognized cases. -/
inductive BodyType
  | body | ship | spaceStation | planet | star | player | otherType
deriving DecidableEq

/-- What a Lua userdata wraps, i.e. the result of `LuaObjectBase::Lookup` on
its id plus the classification `pickle` performs (LuaSerializer.cpp:107-130):
a live Body carrying its stable id from `Serializer::LookupBody`, an
`SBodyPath` with its four integers, a dangling id (`Lookup` returns null), or
a userdata of an unsupported class. -/
inductive UData
  | body (n : Int) (t : BodyType)
  | sbodyPath (x y z w : Int)
  | dangling
  | unsupported
deriving DecidableEq

/-- The Lua value universe as seen by the serializer: the `lua_type` switch of
`pickle` (LuaSerializer.cpp:58).  `other` covers every remaining Lua type
(function, thread, light userdata, ...), carrying its `lua_typename` text.
Tables are insertion-ordered association lists of (key, value) pairs. -/
inductive LuaValue
  | nil
  | num (q : ℚ)
  | boolean (b : Bool)
  | str (s : List Char)
  | table (fields : List (LuaValue × LuaValue))
  | userdata (u : UData)
  | other (tyname : List Char)

mutual

/-- Structural equality on `LuaValue` (Lua raw equality, except that two
structurally equal tables compare equal; nothing in this development ever
compares distinct table objects). -/
def LuaValue.beq : LuaValue → LuaValue → Bool
  | .nil, .nil => true
  | .num a, .num b => a == b
  | .boolean a, .boolean b => a == b
  | .str a, .str b => a == b
  | .table fs, .table gs => LuaValue.beqFields fs gs
  | .userdata a, .userdata b => a == b
  | .other a, .other b => a == b
  | _, _ => false

/-- Pointwise `LuaValue.beq` on field lists. -/
def LuaValue.beqFields : List (LuaValue × LuaValue) → List (LuaValue × LuaValue) → Bool
  | [], [] => true
  | (k1, v1) :: r1, (k2, v2) :: r2 =>
    LuaValue.beq k1 k2 && LuaValue.beq v1 v2 && LuaValue.beqFields r1 r2
  | _, _ => false

end

mutual

/-- Simultaneous induction over a `LuaValue` and its nested field lists. -/
theorem LuaValue.ind2 {P : LuaValue → Prop} {Q : List (LuaValue × LuaValue) → Prop}
    (hnil : P .nil) (hnum : ∀ q, P (.num q)) (hbool : ∀ b, P (.boolean b))
    (hstr : ∀ s, P (.str s)) (htable : ∀ fs, Q fs → P (.table fs))
    (huser : ∀ u, P (.userdata u)) (hother : ∀ t, P (.other t))
    (hfnil : Q []) (hfcons : ∀ k v r, P k → P v → Q r → Q ((k, v) :: r)) :
    ∀ v : LuaValue, P v
  | .nil => hnil
  | .num q => hnum q
  | .boolean b => hbool b
  | .str s => hstr s
  | .table fs => htable fs
      (LuaValue.indFields hnil hnum hbool hstr htable huser hother hfnil hfcons fs)
  | .userdata u => huser u
  | .other t => hother t

/-- Companion of `LuaValue.ind2` for field lists. -/
theorem LuaValue.indFields {P : LuaValue → Prop} {Q : List (LuaValue × LuaValue) → Prop}
    (hnil : P .nil) (hnum : ∀ q, P (.num q)) (hbool : ∀ b, P (.boolean b))
    (hstr : ∀ s, P (.str s)) (htable : ∀ fs, Q fs → P (.table fs))
    (huser : ∀ u, P (.userdata u)) (hother : ∀ t, P (.other t))
    (hfnil : Q []) (hfcons : ∀ k v r, P k → P v → Q r → Q ((k, v) :: r)) :
    ∀ fs : List (LuaValue × LuaValue), Q fs
  | [] => hfnil
  | (k, v) :: r =>
    hfcons k v r
      (LuaValue.ind2 hnil hnum hbool hstr htable huser hother hfnil hfcons k)
      (LuaValue.ind2 hnil hnum hbool hstr htable huser hother hfnil hfcons v)
      (LuaValue.indFields hnil hnum hbool hstr htable huser hother hfnil hfcons r)

end

theorem LuaValue.beq_iff : ∀ a b : LuaValue, LuaValue.beq a b = true ↔ a = b := by
  refine LuaValue.ind2
    (P := fun a => ∀ b, LuaValue.beq a b = true ↔ a = b)
    (Q := fun fs => ∀ gs, LuaValue.beqFields fs gs = true ↔ fs = gs)
    ?_ ?_ ?_ ?_ ?_ ?_ ?_ ?_ ?_
  · intro b; cases b <;> simp [LuaValue.beq]
  · intro q b; cases b <;> simp [LuaValue.beq]
  · intro x b; cases b <;> simp [LuaValue.beq]
  · intro s b; cases b <;> simp [LuaValue.beq]
  · intro fs ih b
    cases b <;> simp [LuaValue.beq] <;> exact ih _
  · intro u b; cases b <;> simp [LuaValue.beq]
  · intro t b; cases b <;> simp [LuaValue.beq]
  · intro gs; cases gs <;> simp [LuaValue.beqFields]
  · intro k v r ihk ihv ihr gs
    match gs with
    | [] => simp [LuaValue.beqFields]
    | (k2, v2) :: r2 =>
      simp only [LuaValue.beqFields, Bool.and_eq_true, ihk, ihv, ihr, List.cons.injEq,
        Prod.mk.injEq, and_assoc]

instance : DecidableEq LuaValue := fun a b => decidable_of_iff _ (LuaValue.beq_iff a b)

/-- `strlen` / C-string append semantics: the bytes of a Lua string up to (and
excluding) the first NUL byte. -/
def cstr (s : List Char) : List Char := s.takeWhile (fun c => c != nulc)

/-- `lua_tostring` on a table key as used only for error-message attribution
in the table branch of `pickle` (LuaSerializer.cpp:94-95): strings convert to
themselves, numbers to their printed text, anything else to a null pointer.
(The exact number-to-text form only ever reaches diagnostic text, never the
stream; the `%f` digits stand in for Lua's `%.14g`.) -/
def luaKeyString : LuaValue → Option (List Char)
  | .str s => some s
  | .num q => some (fmtMicro (microOf q))
  | _ => none

/-- Why `pickle` called `Error(...)` (a process-terminating diagnostic):
dangling object id (LuaSerializer.cpp:112), unsupported userdata class
(line 128), or a Lua type outside the supported set (line 133). -/
inductive FatalReason
  | dangling
  | badUserdata
  | badType (tyname : List Char)
deriving DecidableEq

/-- A fatal encode failure: the diagnostic names the module/key being
serialized (the `key` argument of `pickle`) and the failing case. -/
structure Fatal where
  key : Option (List Char)
  reason : FatalReason
deriving DecidableEq

/-- Literal `"Body"` of the userdata grammar. -/
def bodyLit : List Char := "Body".toList

/-- Literal `"SBodyPath"` of the userdata grammar. -/
def sbodyLit : List Char := "SBodyPath".toList

mutual

/-- `LuaSerializer::pickle` (LuaSerializer.cpp:52-138).  Arguments: the `key`
used for error attribution, the value, the Lua value stack, and the output
accumulator `out`.  Returns the new output and the stack at return.

Stack bookkeeping mirrors the source line by line: the string branch pushes a
copy and pops it (lines 75-80); the table branch pushes the table copy and a
nil "previous key" (lines 86-87) and pops the copy at the end (line 102); see
`LuaSerializer.pickleFields` for the `lua_next` loop. -/
def LuaSerializer.pickle (key : Option (List Char)) :
    LuaValue → List LuaValue → List Char → Except Fatal (List Char × List LuaValue)
  | .nil, st, out => .ok (out, st)
  | .num q, st, out => .ok (out ++ fmtF q, st)
  | .boolean b, st, out => .ok (out ++ ['b', if b then '1' else '0'], st)
  | .str s, st, out =>
    let st1 := LuaValue.str s :: st
    let cs := cstr s
    .ok (out ++ 's' :: natDecChars cs.length ++ '\n' :: cs, st1.drop 1)
  | .table fs, st, out =>
    match LuaSerializer.pickleFields key fs (LuaValue.nil :: LuaValue.table fs :: st)
        (out ++ ['t']) with
    | .ok (o, st2) => .ok (o ++ ['n'], st2.drop 1)
    | .error e => .error e
  | .userdata u, st, out =>
    let o1 := out ++ ['u']
    match u with
    | .dangling => .error ⟨key, .dangling⟩
    | .sbodyPath x y z w =>
      .ok (o1 ++ sbodyLit ++ '\n' :: intDecChars x ++ '\n' :: intDecChars y ++
             '\n' :: intDecChars z ++ '\n' :: intDecChars w ++ ['\n'], st)
    | .body n _ => .ok (o1 ++ bodyLit ++ '\n' :: intDecChars n ++ ['\n'], st)
    | .unsupported => .error ⟨key, .badUserdata⟩
  | .other ty, _, _ => .error ⟨key, .badType ty⟩

/-- The `lua_next` loop of the table branch of `pickle`
(LuaSerializer.cpp:88-101).  The stack parameter carries the previous key on
top (`lua_next` pops it and pushes the next key and value, or pushes nothing
at the end).  With a null `key`, a copy of the key is pushed, converted by
`lua_tostring` for attribution, and popped (lines 94-98); the loop tail pops
the value (line 100). -/
def LuaSerializer.pickleFields (key : Option (List Char)) :
    List (LuaValue × LuaValue) → List LuaValue → List Char →
      Except Fatal (List Char × List LuaValue)
  | [], st, out => .ok (out, st.drop 1)
  | (k, v) :: rest, st, out =>
    let st1 := v :: k :: st.drop 1
    match key with
    | some _ =>
      match LuaSerializer.pickle key k st1 out with
      | .error e => .error e
      | .ok (o1, s1) =>
        match LuaSerializer.pickle key v s1 o1 with
        | .error e => .error e
        | .ok (o2, s2) => LuaSerializer.pickleFields key rest (s2.drop 1) o2
    | none =>
      let kk := luaKeyString k
      match LuaSerializer.pickle kk k (k :: st1) out with
      | .error e => .error e
      | .ok (o1, s1) =>
        match LuaSerializer.pickle kk v s1 o1 with
        | .error e => .error e
        | .ok (o2, s2) => LuaSerializer.pickleFields key rest ((s2.drop 1).drop 1) o2

end

/-- The external identity table consumed by decode:
`Serializer::LookupBody(int)` abstracted to the kind of the live object a
stable id resolves to, or `none` when no such object exists. -/
structure Env where
  lookupBody : Int → Option BodyType

/-- Outcome of one decoder run, carrying the Lua stack at exit: a normal
return with the advanced cursor, a thrown `SavedGameCorruptException`, or
undefined behaviour (an out-of-bounds read past the buffer or a null-pointer
dereference).  `nofuel` only closes the fuel recursion and is never reached
with the wrapper's fuel. -/
inductive UOut
  | ok (st : List LuaValue) (p : Nat)
  | corrupt (st : List LuaValue)
  | ub (st : List LuaValue)
  | nofuel
deriving DecidableEq

/-- `*pos`: the byte at cursor `p` of the NUL-terminated buffer `s`.  Position
`s.length` reads the terminator; any later position is an out-of-bounds read
(`none`). -/
def peekc (s : List Char) (p : Nat) : Option Char := ((s ++ [nulc]).drop p).head?

/-- `strncmp`-style view: `n` bytes of `s` starting at `p`. -/
def takeAt (s : List Char) (p n : Nat) : List Char := (s.drop p).take n

/-- `strchr(pos, '\n')` on a C string: offset of the first newline before the
first NUL (an embedded NUL byte stops the scan exactly like the terminator). -/
def findNl : List Char → Option Nat
  | [] => none
  | c :: t => if c = nulc then none else if c = '\n' then some 0 else (findNl t).map (· + 1)

/-- Scan of `strtol(pos, &end, 0)` on the text after the cursor: optional
sign then decimal digits; returns the value and the number of bytes consumed
(zero when no digits converted).  The base-0 octal/hex prefixes of the libc
routine are not modelled: `%d` output never carries them, and no claim input
does. -/
def strtolCore (r : List Char) : Int × Nat :=
  let sn := if r.head? = some '-' ∨ r.head? = some '+' then 1 else 0
  let ds := (r.drop sn).takeWhile isDig
  if ds.length = 0 then (0, 0)
  else if r.head? = some '-' then (-(digitsVal ds : Int), sn + ds.length)
  else ((digitsVal ds : Int), sn + ds.length)

/-- `strtol(pos, &end, 0)` at cursor `p`: value and end position (`p` itself
when no digits converted). -/
def strtolM (s : List Char) (p : Nat) : Int × Nat :=
  ((strtolCore (s.drop p)).1, p + (strtolCore (s.drop p)).2)

/-- Scan of `strtod(pos, &end)` on the text after the cursor: optional sign,
integer digits, optional dot and fraction digits; returns the exact rational
value and the number of bytes consumed (zero when no digits converted).
Exponents, hex floats, inf/nan and leading whitespace are not modelled: the
encoder never emits them and no claim input contains them. -/
def strtodCore (r : List Char) : ℚ × Nat :=
  let sn := if r.head? = some '-' ∨ r.head? = some '+' then 1 else 0
  let r1 := r.drop sn
  let ds := r1.takeWhile isDig
  let r2 := r1.drop ds.length
  let dn := if r2.head? = some '.' then 1 else 0
  let fs := if r2.head? = some '.' then (r2.drop 1).takeWhile isDig else []
  if ds.length + fs.length = 0 then ((0 : ℚ), 0)
  else
    let mag : ℚ := (digitsVal ds : ℚ) + (digitsVal fs : ℚ) / ((10 : ℚ) ^ fs.length)
    ((if r.head? = some '-' then -mag else mag), sn + ds.length + dn + fs.length)

/-- `strtod(pos, &end)` at cursor `p`: value and end position (`p` itself
when no digits converted). -/
def strtodM (s : List Char) (p : Nat) : ℚ × Nat :=
  ((strtodCore (s.drop p)).1, p + (strtodCore (s.drop p)).2)

/-- The double-to-`int` conversion in `int len = strtod(...)`: truncation
toward zero. -/
def qTrunc (q : ℚ) : Int := if 0 ≤ q then ⌊q⌋ else -⌊-q⌋

/-- Lua `rawset t[k] = v` on the insertion-ordered field list: a nil value
erases the key, an existing key is overwritten in place, a fresh key is
appended. -/
def fieldsSet (fs : List (LuaValue × LuaValue)) (k v : LuaValue) : List (LuaValue × LuaValue) :=
  if v = .nil then fs.filter (fun e => !(e.1 == k))
  else if fs.any (fun e => e.1 == k) then fs.map (fun e => if e.1 = k then (k, v) else e)
  else fs ++ [(k, v)]

/-- `lua_rawset(l, -3)` (LuaSerializer.cpp:180): pop the value and key, set
them into the table at -3.  A non-table there or a nil key is a runtime error
of the host, modelled as `none` (it is provably unreachable on decoder-built
stacks). -/
def rawset3 : List LuaValue → Option (List LuaValue)
  | v :: k :: LuaValue.table fs :: rest =>
    if k = .nil then none else some (LuaValue.table (fieldsSet fs k v) :: rest)
  | _ => none

/-- Which piece of `unpickle` is running: the value decoder itself, or the
`while (*pos != 'n')` table loop of the `'t'` case (LuaSerializer.cpp:177-181). -/
inductive UTask
  | val
  | loop
deriving DecidableEq

/-- `LuaSerializer::unpickle` (LuaSerializer.cpp:140-264), fuel-indexed and
stack-explicit.  `unp env fuel .val s p st` decodes one value of `s` starting
at cursor `p` with Lua stack `st`; `.loop` is the table-field loop, entered
with the freshly pushed table on top of the stack.

Faithful to the source, including its defects: the `'s'` case reads `len`
bytes wherever the length parse ended without a bounds check, so a declared
length running past the terminator is an out-of-bounds read (`ub`); the
`'u'`/Body case re-tests the stale cursor comparison `pos == end` after
`pos = end + 1` (always false) where a null test of the looked-up body was
intended, so an unresolvable id reaches `body->GetType()` on a null pointer
(`ub`); after each numeric field the cursor skips one byte unconditionally
("skip newline") without checking that the byte is a newline. -/
def unp (env : Env) (fuel : Nat) (t : UTask) (s : List Char) (p : Nat)
    (st : List LuaValue) : UOut :=
  match fuel with
  | 0 => .nofuel
  | f + 1 =>
    match t with
    | .loop =>
      match peekc s p with
      | none => .ub st
      | some c =>
        if c = 'n' then .ok st (p + 1)
        else
          match unp env f .val s p st with
          | .ok st1 p1 =>
            match unp env f .val s p1 st1 with
            | .ok st2 p2 =>
              match rawset3 st2 with
              | some st3 => unp env f .loop s p2 st3
              | none => .ub st2
            | r => r
          | r => r
    | .val =>
      match peekc s p with
      | none => .ub st
      | some ty =>
        let p1 := p + 1
        if ty = 'f' then
          match strtodM s p1 with
          | (fv, e) => if p1 = e then .corrupt st else .ok (.num fv :: st) (e + 1)
        else if ty = 'b' then
          match peekc s p1 with
          | none => .ub st
          | some c =>
            if ¬ c = '0' ∧ ¬ c = '1' then .corrupt st
            else .ok (.boolean (!(c == '0')) :: st) (p1 + 1)
        else if ty = 's' then
          match strtodM s p1 with
          | (lq, e) =>
            if p1 = e then .corrupt st
            else
              let len := qTrunc lq
              let e1 := e + 1
              if len < 0 then .ub st
              else if e1 + len.toNat ≤ s.length + 1 then
                .ok (.str (takeAt (s ++ [nulc]) e1 len.toNat) :: st) (e1 + len.toNat)
              else .ub st
        else if ty = 't' then
          unp env f .loop s p1 (.table [] :: st)
        else if ty = 'u' then
          match findNl (s.drop p1) with
          | none => .corrupt st
          | some len =>
            let e := p1 + len + 1
            if len == 9 && takeAt s p1 9 == sbodyLit then
              match strtolM s e with
              | (x1, e1) =>
              if e = e1 then .corrupt st else
              match strtolM s (e1 + 1) with
              | (x2, e2) =>
              if e1 + 1 = e2 then .corrupt st else
              match strtolM s (e2 + 1) with
              | (x3, e3) =>
              if e2 + 1 = e3 then .corrupt st else
              match strtolM s (e3 + 1) with
              | (x4, e4) =>
              if e3 + 1 = e4 then .corrupt st else
              .ok (.userdata (.sbodyPath x1 x2 x3 x4) :: st) (e4 + 1)
            else if len == 4 && takeAt s p1 4 == bodyLit then
              match strtolM s e with
              | (n, e1) =>
              if e = e1 then .corrupt st else
              let p2 := e1 + 1
              let bd := env.lookupBody n
              if p2 = e1 then .corrupt st
              else
                match bd with
                | none => .ub st
                | some bt =>
                  match bt with
                  | .otherType => .corrupt st
                  | _ => .ok (.userdata (.body n bt) :: st) p2
            else .corrupt st
        else .corrupt st

namespace LuaSerializer

/-- `LuaSerializer::unpickle` with fuel sufficient for any run over `s` (each
fuel tick consumes at least one byte of the buffer or terminates). -/
def unpickle (env : Env) (s : List Char) (p : Nat) (st : List LuaValue) : UOut :=
  unp env (s.length + 2) .val s p st

end LuaSerializer

/-- One registered module of the `PiSerializerCallbacks` table: its key and
the value its save callback returns when `Serialize` invokes it. -/
structure ModuleReg where
  key : List Char
  save : LuaValue

/-- The `savetable` assembly loop of `LuaSerializer::Serialize`
(LuaSerializer.cpp:283-292): call each registered module's save callback and
set the result under the module's key in a fresh table. -/
def buildSave (regs : List ModuleReg) : List (LuaValue × LuaValue) :=
  regs.foldl (fun fs r => fieldsSet fs (.str r.key) r.save) []

namespace LuaSerializer

/-- `LuaSerializer::Serialize` (LuaSerializer.cpp:266-304): build a fresh
save table from the currently registered callbacks, pickle it once with a
null key, and hand the bytes to the writer.  Note the table is created anew
by `lua_newtable` on every call and popped at the end: nothing decoded by an
earlier `Unserialize` feeds into it. -/
def Serialize (regs : List ModuleReg) : Except Fatal (List Char) :=
  match LuaSerializer.pickle none (.table (buildSave regs)) [] [] with
  | .ok (o, _) => .ok o
  | .error e => .error e

end LuaSerializer

/-- How `Unserialize` fails: the thrown corruption condition, undefined
behaviour inside `unpickle`, or fuel exhaustion (never with the wrapper's
fuel). -/
inductive UErr
  | corrupt
  | ubErr
  | fuelOut
deriving DecidableEq

/-- `lua_getfield(l, savetable, key)` on the decoded table: the value under a
string key, or nil when absent. -/
def tableGet (fs : List (LuaValue × LuaValue)) (k : List Char) : LuaValue :=
  match fs.find? (fun e => e.1 == LuaValue.str k) with
  | some e => e.2
  | none => .nil

/-- Is the value a Lua table (`lua_istable`)? -/
def LuaValue.isTable : LuaValue → Bool
  | .table _ => true
  | _ => false

namespace LuaSerializer

/-- `LuaSerializer::Unserialize` (LuaSerializer.cpp:306-344): unpickle the
blob, throw corruption unless the cursor landed exactly at the end of the
buffer and the decoded top value is a table, then dispatch to each currently
registered module's load callback the value found under its key (an empty
table when absent).  The result lists the dispatched (key, value) calls.
After the loop both the callbacks table and the decoded save table are popped
(line 341): the decoded table is not retained anywhere. -/
def Unserialize (env : Env) (regs : List ModuleReg) (blob : List Char) :
    Except UErr (List (List Char × LuaValue)) :=
  match LuaSerializer.unpickle env blob 0 [] with
  | .ok st e =>
    if ¬ e = blob.length then .error .corrupt
    else
      match st with
      | .table fs :: _ =>
        .ok (regs.map (fun r =>
          (r.key, match tableGet fs r.key with
                  | .nil => .table []
                  | v => v)))
      | _ => .error .corrupt
  | .corrupt _ => .error .corrupt
  | .ub _ => .error .ubErr
  | .nofuel => .error .fuelOut

end LuaSerializer

/-- The values the codec round-trips exactly: no object references, numbers
on the `10^-6` grid the `%f` text keeps, strings free of the NUL byte the
encoder's C-string operations stop at, tables with structurally distinct
keys and storable entries (nil entries cannot occur in a Lua table). -/
inductive Storable : LuaValue → Prop
  | num (q : ℚ) : (q * 1000000).den = 1 → Storable (.num q)
  | boolean (b : Bool) : Storable (.boolean b)
  | str (s : List Char) : nulc ∉ s → Storable (.str s)
  | table (fs : List (LuaValue × LuaValue)) :
      (∀ kv, kv ∈ fs → Storable kv.1) →
      (∀ kv, kv ∈ fs → Storable kv.2) →
      (fs.map Prod.fst).Nodup → Storable (.table fs)

/-- The well-typed inputs of `pickle`: everything in its supported type set,
i.e. no dangling object ids, no unsupported userdata classes, and no Lua
types from the default branch, at any nesting depth. -/
inductive Supported : LuaValue → Prop
  | nil : Supported .nil
  | num (q : ℚ) : Supported (.num q)
  | boolean (b : Bool) : Supported (.boolean b)
  | str (s : List Char) : Supported (.str s)
  | table (fs : List (LuaValue × LuaValue)) :
      (∀ kv, kv ∈ fs → Supported kv.1) →
      (∀ kv, kv ∈ fs → Supported kv.2) → Supported (.table fs)
  | ubody (n : Int) (t : BodyType) : Supported (.userdata (.body n t))
  | upath (x y z w : Int) : Supported (.userdata (.sbodyPath x y z w))

/-- A decode environment with no live objects at all. -/
def env0 : Env := ⟨fun _ => none⟩

/-- A decode environment resolving id 5 to a planet. -/
def envP : Env := ⟨fun n => if n = 5 then some .planet else none⟩

/-- Round-trip property of one value: a storable value pickles (under any
key, stack and output prefix) to a byte chunk `bs` that, decoded at any
cursor position where it is followed by anything, pushes exactly the value
back and advances the cursor past the chunk. -/
def RTv (v : LuaValue) : Prop :=
  Storable v →
  ∃ bs : List Char,
    (∀ key st out, LuaSerializer.pickle key v st out = .ok (out ++ bs, st))
    ∧ 1 ≤ bs.length ∧ bs.head? ≠ some 'n'
    ∧ ∀ (env : Env) (s : List Char) (p : Nat) (rest : List Char)
        (st2 : List LuaValue) (fu : Nat),
        bs.length + 2 ≤ fu → s.drop p = bs ++ rest →
        unp env fu .val s p st2 = .ok (v :: st2) (p + bs.length)

/-- Round-trip property of a field list: the `lua_next` loop emits a chunk
`bs` that the decode table loop, run over `bs` followed by the terminator
`'n'`, turns into exactly these fields appended to the accumulated table. -/
def RTf (fs : List (LuaValue × LuaValue)) : Prop :=
  (∀ kv ∈ fs, Storable kv.1) → (∀ kv ∈ fs, Storable kv.2) →
  (fs.map Prod.fst).Nodup →
  ∃ bs : List Char,
    (∀ key st out, LuaSerializer.pickleFields key fs st out = .ok (out ++ bs, st.drop 1))
    ∧ ∀ (env : Env) (s : List Char) (p : Nat) (rest : List Char)
        (acc : List (LuaValue × LuaValue)) (st2 : List LuaValue) (fu : Nat),
        bs.length + 2 ≤ fu → s.drop p = bs ++ 'n' :: rest →
        (∀ kv ∈ fs, ∀ e ∈ acc, ¬ e.1 = kv.1) →
        unp env fu .loop s p (.table acc :: st2)
          = .ok (.table (acc ++ fs) :: st2) (p + bs.length + 1)

/-- Does `s` contain `pat` as a contiguous run of bytes?  Used to state
whether a byte stream still carries a module's encoded entry. -/
def containsSeq (pat : List Char) : List Char → Bool
  | [] => pat == []
  | c :: t => ((c :: t).take pat.length == pat) || containsSeq pat t

/-! ### Decimal-text lemmas -/

theorem digitsVal_append_one (l : List Char) (c : Char) :
    digitsVal (l ++ [c]) = 10 * digitsVal l + (c.toNat - 48) := by
  simp [digitsVal, List.foldl_append]

theorem digitChar_isDig (d : Nat) (h : d < 10) : isDig (digitChar d) = true := by
  interval_cases d <;> decide

theorem digitChar_val (d : Nat) (h : d < 10) : (digitChar d).toNat - 48 = d := by
  interval_cases d <;> decide

theorem natDecAux_spec : ∀ f n, n < f →
    natDecAux f n ≠ [] ∧ (∀ c ∈ natDecAux f n, isDig c = true) ∧
      digitsVal (natDecAux f n) = n := by
  intro f
  induction f with
  | zero => intro n h; omega
  | succ f ih =>
    intro n hn
    by_cases h10 : n < 10
    · refine ⟨by simp [natDecAux, h10], ?_, ?_⟩
      · intro c hc
        simp [natDecAux, h10] at hc
        subst hc
        exact digitChar_isDig n h10
      · simp [natDecAux, h10, digitsVal, digitChar_val n h10]
    · have hdivlt : n / 10 < n := Nat.div_lt_self (by omega) (by omega)
      have hdiv : n / 10 < f := by omega
      obtain ⟨h1, h2, h3⟩ := ih (n / 10) hdiv
      refine ⟨by simp [natDecAux, h10], ?_, ?_⟩
      · intro c hc
        simp only [natDecAux, h10, if_false, List.mem_append, List.mem_singleton] at hc
        rcases hc with hc | hc
        · exact h2 c hc
        · subst hc; exact digitChar_isDig _ (Nat.mod_lt n (by omega))
      · simp only [natDecAux, h10, if_false, digitsVal_append_one, h3,
          digitChar_val _ (Nat.mod_lt n (by omega))]
        omega

theorem natDecChars_ne_nil (n : Nat) : natDecChars n ≠ [] :=
  (natDecAux_spec (n + 1) n (by omega)).1

theorem natDecChars_digits (n : Nat) : ∀ c ∈ natDecChars n, isDig c = true :=
  (natDecAux_spec (n + 1) n (by omega)).2.1

theorem natDecChars_val (n : Nat) : digitsVal (natDecChars n) = n :=
  (natDecAux_spec (n + 1) n (by omega)).2.2

theorem natDecAux_len : ∀ f n d, n < f → n < 10 ^ d → 0 < d →
    (natDecAux f n).length ≤ d := by
  intro f
  induction f with
  | zero => intro n d h; omega
  | succ f ih =>
    intro n d hn hd hdpos
    by_cases h10 : n < 10
    · simp [natDecAux, h10]; omega
    · have hd2 : 2 ≤ d := by
        rcases Nat.lt_or_ge d 2 with h | h
        · interval_cases d <;> omega
        · exact h
      have hstep : n / 10 < 10 ^ (d - 1) := by
        rw [Nat.div_lt_iff_lt_mul (by omega)]
        have : 10 ^ (d - 1) * 10 = 10 ^ d := by
          rw [← pow_succ]
          congr 1
          omega
        omega
      have := ih (n / 10) (d - 1) (by
        have : n / 10 < n := Nat.div_lt_self (by omega) (by omega)
        omega) hstep (by omega)
      simp only [natDecAux, h10, if_false, List.length_append, List.length_cons,
        List.length_nil]
      omega

theorem natDecChars_len (n d : Nat) (h : n < 10 ^ d) (hd : 0 < d) :
    (natDecChars n).length ≤ d :=
  natDecAux_len (n + 1) n d (by omega) h hd

theorem digitsVal_replicate_zero (k : Nat) (l : List Char) :
    digitsVal (List.replicate k '0' ++ l) = digitsVal l := by
  induction k with
  | zero => simp
  | succ k ih =>
    simpa [digitsVal, List.replicate_succ] using ih

theorem takeWhile_append_stop {p : Char → Bool} (l : List Char) (c : Char) (r : List Char)
    (hl : ∀ x ∈ l, p x = true) (hc : p c = false) :
    (l ++ c :: r).takeWhile p = l := by
  induction l with
  | nil => simp [List.takeWhile_cons, hc]
  | cons a t ih =>
    have ha : p a = true := hl a (by simp)
    simp only [List.cons_append, List.takeWhile_cons, ha, if_true, List.cons.injEq, true_and]
    exact ih (fun x hx => hl x (by simp [hx]))

theorem isDig_char_ne (c d : Char) (hc : isDig c = true) (hd : isDig d = false) : ¬ c = d := by
  intro h
  subst h
  rw [hc] at hd
  cases hd

/-! ### Cursor and scanning lemmas -/

theorem lt_length_of_drop_cons {s : List Char} {p : Nat} {c : Char} {r : List Char}
    (h : s.drop p = c :: r) : p < s.length := by
  by_contra hle
  rw [List.drop_eq_nil_of_le (by omega)] at h
  exact absurd h (by simp)

theorem length_of_drop_append {s : List Char} {p : Nat} {x r : List Char}
    (h : s.drop p = x ++ r) (hp : p ≤ s.length) : s.length = p + x.length + r.length := by
  have := List.length_drop p s
  rw [h] at this
  simp at this
  omega

theorem peekc_of_drop {s : List Char} {p : Nat} {c : Char} {r : List Char}
    (h : s.drop p = c :: r) : peekc s p = some c := by
  have hp : p ≤ s.length := le_of_lt (lt_length_of_drop_cons h)
  unfold peekc
  rw [List.drop_append_of_le_length hp, h]
  simp

theorem peekc_at_end (s : List Char) : peekc s s.length = some nulc := by
  unfold peekc
  rw [List.drop_append_of_le_length le_rfl, List.drop_eq_nil_of_le le_rfl]
  simp

theorem drop_succ_of_drop {s : List Char} {p : Nat} {c : Char} {r : List Char}
    (h : s.drop p = c :: r) : s.drop (p + 1) = r := by
  rw [← List.drop_drop, h]
  simp

theorem drop_add_of_drop {s : List Char} {p : Nat} {x r : List Char}
    (h : s.drop p = x ++ r) : s.drop (p + x.length) = r := by
  rw [← List.drop_drop, h, List.drop_left]


theorem strtolCore_render (m : Int) (c0 : Char) (r : List Char) (hc0 : isDig c0 = false) :
    strtolCore (intDecChars m ++ c0 :: r) = (m, (intDecChars m).length) := by
  have hN1 := natDecChars_ne_nil m.natAbs
  have hNlen : ¬ (natDecChars m.natAbs).length = 0 := by
    simpa [List.length_eq_zero] using hN1
  have hds := takeWhile_append_stop (p := isDig) (natDecChars m.natAbs) c0 r
    (natDecChars_digits _) hc0
  by_cases hm : m < 0
  · rw [show intDecChars m = '-' :: natDecChars m.natAbs from by simp [intDecChars, hm]]
    have hv : -((m.natAbs : Nat) : Int) = m := by omega
    simp [strtolCore, hds, hNlen, natDecChars_val, hv]
    constructor
    · rw [abs_of_neg hm]
      exact neg_neg m
    · omega
  · rw [show intDecChars m = natDecChars m.natAbs from by simp [intDecChars, hm]]
    obtain ⟨d, ds, hd⟩ : ∃ d ds, natDecChars m.natAbs = d :: ds := by
      rcases hds2 : natDecChars m.natAbs with _ | ⟨d, ds⟩
      · exact absurd hds2 hN1
      · exact ⟨d, ds, rfl⟩
    have hdig : isDig d = true := natDecChars_digits m.natAbs d (by rw [hd]; simp)
    have hdm : ¬ d = '-' := isDig_char_ne d '-' hdig (by decide)
    have hdp : ¬ d = '+' := isDig_char_ne d '+' hdig (by decide)
    have hv : ((digitsVal (d :: ds) : Nat) : Int) = m := by
      have := natDecChars_val m.natAbs
      rw [hd] at this
      omega
    rw [hd] at hds ⊢
    simp only [List.cons_append] at hds ⊢
    simp [strtolCore, hds, hdm, hdp, hv]

theorem strtolM_render {s : List Char} {p : Nat} (m : Int) {c0 : Char} {r : List Char}
    (hdrop : s.drop p = intDecChars m ++ c0 :: r) (hc0 : isDig c0 = false) :
    strtolM s p = (m, p + (intDecChars m).length) := by
  simp [strtolM, hdrop, strtolCore_render m c0 r hc0]

theorem padZero_digits (l : List Char) (hl : ∀ c ∈ l, isDig c = true) :
    ∀ c ∈ padZero 6 l, isDig c = true := by
  intro c hc
  simp only [padZero, List.mem_append, List.mem_replicate] at hc
  rcases hc with ⟨_, hc⟩ | hc
  · subst hc; decide
  · exact hl c hc

theorem padZero_len (l : List Char) (h : l.length ≤ 6) : (padZero 6 l).length = 6 := by
  simp [padZero]
  omega

theorem padZero_val (l : List Char) : digitsVal (padZero 6 l) = digitsVal l :=
  digitsVal_replicate_zero _ l

theorem micro_decomp (n : Nat) :
    ((n / 1000000 : ℕ) : ℚ) + ((n % 1000000 : ℕ) : ℚ) / (10 : ℚ) ^ (6 : ℕ) =
      (n : ℚ) / 1000000 := by
  have h : 1000000 * (n / 1000000) + n % 1000000 = n := Nat.div_add_mod n 1000000
  have h2 : (1000000 : ℚ) * ((n / 1000000 : ℕ) : ℚ) + ((n % 1000000 : ℕ) : ℚ) = (n : ℚ) := by
    exact_mod_cast congrArg (Nat.cast : ℕ → ℚ) h
  have h6 : ((10 : ℚ) ^ (6 : ℕ)) = 1000000 := by norm_num
  rw [h6]
  field_simp
  linarith [h2]

theorem digitsVal_nil : digitsVal [] = 0 := rfl

theorem strtodCore_digitsOnly (A : List Char) (c0 : Char) (r : List Char)
    (hA1 : A ≠ []) (hAdig : ∀ c ∈ A, isDig c = true)
    (hc0 : isDig c0 = false) (hdot : ¬ c0 = '.') :
    strtodCore (A ++ c0 :: r) = ((digitsVal A : ℚ), A.length) := by
  obtain ⟨d, ds, hd⟩ : ∃ d ds, A = d :: ds := by
    rcases h : A with _ | ⟨d, ds⟩
    · exact absurd h hA1
    · exact ⟨d, ds, rfl⟩
  subst hd
  have hdig : isDig d = true := hAdig d (by simp)
  have hdm : ¬ d = '-' := isDig_char_ne d '-' hdig (by decide)
  have hdp : ¬ d = '+' := isDig_char_ne d '+' hdig (by decide)
  have hds : List.takeWhile isDig ((d :: ds) ++ c0 :: r) = d :: ds :=
    takeWhile_append_stop _ _ _ hAdig hc0
  have hdropA : ((d :: ds) ++ c0 :: r).drop (d :: ds).length = c0 :: r := List.drop_left _ _
  simp only [List.cons_append] at hds hdropA ⊢
  simp [strtodCore, hds, hdm, hdp, hdropA, hdot, digitsVal_nil]

theorem strtodCore_dotted (A B : List Char) (c0 : Char) (r : List Char)
    (hA1 : A ≠ []) (hAdig : ∀ c ∈ A, isDig c = true) (hBdig : ∀ c ∈ B, isDig c = true)
    (hc0 : isDig c0 = false) :
    strtodCore (A ++ '.' :: (B ++ c0 :: r)) =
      ((digitsVal A : ℚ) + (digitsVal B : ℚ) / (10 : ℚ) ^ B.length,
        A.length + 1 + B.length) := by
  obtain ⟨d, ds, hd⟩ : ∃ d ds, A = d :: ds := by
    rcases h : A with _ | ⟨d, ds⟩
    · exact absurd h hA1
    · exact ⟨d, ds, rfl⟩
  subst hd
  have hdig : isDig d = true := hAdig d (by simp)
  have hdm : ¬ d = '-' := isDig_char_ne d '-' hdig (by decide)
  have hdp : ¬ d = '+' := isDig_char_ne d '+' hdig (by decide)
  have hds : List.takeWhile isDig ((d :: ds) ++ '.' :: (B ++ c0 :: r)) = d :: ds :=
    takeWhile_append_stop _ _ _ hAdig (by decide)
  have hdropA : ((d :: ds) ++ '.' :: (B ++ c0 :: r)).drop (d :: ds).length
      = '.' :: (B ++ c0 :: r) := List.drop_left _ _
  have hdsB : List.takeWhile isDig (B ++ c0 :: r) = B :=
    takeWhile_append_stop _ _ _ hBdig hc0
  simp only [List.cons_append] at hds hdropA ⊢
  simp [strtodCore, hds, hdm, hdp, hdropA, hdsB]

theorem strtodCore_dotted_neg (A B : List Char) (c0 : Char) (r : List Char)
    (hA1 : A ≠ []) (hAdig : ∀ c ∈ A, isDig c = true) (hBdig : ∀ c ∈ B, isDig c = true)
    (hc0 : isDig c0 = false) :
    strtodCore ('-' :: (A ++ '.' :: (B ++ c0 :: r))) =
      (-((digitsVal A : ℚ) + (digitsVal B : ℚ) / (10 : ℚ) ^ B.length),
        1 + (A.length + 1 + B.length)) := by
  have hds : List.takeWhile isDig (A ++ '.' :: (B ++ c0 :: r)) = A :=
    takeWhile_append_stop _ _ _ hAdig (by decide)
  have hdropA : (A ++ '.' :: (B ++ c0 :: r)).drop A.length
      = '.' :: (B ++ c0 :: r) := List.drop_left _ _
  have hdsB : List.takeWhile isDig (B ++ c0 :: r) = B :=
    takeWhile_append_stop _ _ _ hBdig hc0
  have hA0 : ¬ A.length = 0 := by simpa [List.length_eq_zero] using hA1
  simp [strtodCore, hds, hdropA, hdsB, hA0]
  omega

theorem strtodM_of_drop {s : List Char} {p : Nat} {x : List Char} (h : s.drop p = x) :
    strtodM s p = ((strtodCore x).1, p + (strtodCore x).2) := by
  simp [strtodM, h]

theorem strtodM_nat {s : List Char} {p : Nat} (n : Nat) {c0 : Char} {r : List Char}
    (hdrop : s.drop p = natDecChars n ++ c0 :: r)
    (hc0 : isDig c0 = false) (hdot : ¬ c0 = '.') :
    strtodM s p = ((n : ℚ), p + (natDecChars n).length) := by
  rw [strtodM_of_drop hdrop,
    strtodCore_digitsOnly _ _ _ (natDecChars_ne_nil n) (natDecChars_digits n) hc0 hdot,
    natDecChars_val]

theorem natAbs_cast_neg {m : Int} (hm : m < 0) : ((m.natAbs : ℕ) : ℚ) = -(m : ℚ) := by
  rw [Int.cast_natAbs, abs_of_neg hm]
  push_cast
  ring

theorem natAbs_cast_nonneg {m : Int} (hm : ¬ m < 0) : ((m.natAbs : ℕ) : ℚ) = (m : ℚ) := by
  rw [Int.cast_natAbs, abs_of_nonneg (not_lt.mp hm)]

theorem strtodM_fmt {s : List Char} {p : Nat} (m : Int) {c0 : Char} {r : List Char}
    (hdrop : s.drop p = fmtMicro m ++ c0 :: r)
    (hc0 : isDig c0 = false) (hdot : ¬ c0 = '.') :
    strtodM s p = ((m : ℚ) / 1000000, p + (fmtMicro m).length) := by
  have hmod : m.natAbs % 1000000 < 10 ^ 6 := by
    have := Nat.mod_lt m.natAbs (y := 1000000) (by omega)
    norm_num
    omega
  have hBlen : (padZero 6 (natDecChars (m.natAbs % 1000000))).length = 6 :=
    padZero_len _ (natDecChars_len _ 6 hmod (by omega))
  have hBdig : ∀ c ∈ padZero 6 (natDecChars (m.natAbs % 1000000)), isDig c = true :=
    padZero_digits _ (natDecChars_digits _)
  have hBval : digitsVal (padZero 6 (natDecChars (m.natAbs % 1000000)))
      = m.natAbs % 1000000 := by
    rw [padZero_val, natDecChars_val]
  have hmag : (digitsVal (natDecChars (m.natAbs / 1000000)) : ℚ) +
      (digitsVal (padZero 6 (natDecChars (m.natAbs % 1000000))) : ℚ) /
        (10 : ℚ) ^ (padZero 6 (natDecChars (m.natAbs % 1000000))).length
      = ((m.natAbs : ℕ) : ℚ) / 1000000 := by
    rw [natDecChars_val, hBval, hBlen]
    exact micro_decomp m.natAbs
  by_cases hm : m < 0
  · have hshape : fmtMicro m ++ c0 :: r = '-' :: (natDecChars (m.natAbs / 1000000) ++
        '.' :: (padZero 6 (natDecChars (m.natAbs % 1000000)) ++ c0 :: r)) := by
      simp [fmtMicro, hm]
    have hlen2 : (fmtMicro m).length = 1 + ((natDecChars (m.natAbs / 1000000)).length + 1 +
        (padZero 6 (natDecChars (m.natAbs % 1000000))).length) := by
      simp [fmtMicro, hm]
      omega
    rw [strtodM_of_drop hdrop, hshape,
      strtodCore_dotted_neg _ _ _ _ (natDecChars_ne_nil _) (natDecChars_digits _) hBdig hc0,
      hmag, natAbs_cast_neg hm, hlen2]
    simp [neg_div, neg_neg]
  · have hshape : fmtMicro m ++ c0 :: r = natDecChars (m.natAbs / 1000000) ++
        '.' :: (padZero 6 (natDecChars (m.natAbs % 1000000)) ++ c0 :: r) := by
      simp [fmtMicro, hm]
    have hlen2 : (fmtMicro m).length = (natDecChars (m.natAbs / 1000000)).length + 1 +
        (padZero 6 (natDecChars (m.natAbs % 1000000))).length := by
      simp [fmtMicro, hm]
      omega
    rw [strtodM_of_drop hdrop, hshape,
      strtodCore_dotted _ _ _ _ (natDecChars_ne_nil _) (natDecChars_digits _) hBdig hc0,
      hmag, natAbs_cast_nonneg hm, hlen2]

theorem findNl_render (x : List Char) (r : List Char)
    (hnl : '\n' ∉ x) (hnul : nulc ∉ x) :
    findNl (x ++ '\n' :: r) = some x.length := by
  induction x with
  | nil => simp [findNl]; decide
  | cons c t ih =>
    have hc1 : ¬ c = nulc := fun h => hnul (h ▸ List.mem_cons_self c t)
    have hc2 : ¬ c = '\n' := fun h => hnl (h ▸ List.mem_cons_self c t)
    have ih2 := ih (fun h => hnl (List.mem_cons_of_mem c h))
      (fun h => hnul (List.mem_cons_of_mem c h))
    simp only [List.cons_append, findNl, if_neg hc1, if_neg hc2, List.append_eq, ih2]
    simp

theorem cstr_of_no_nul (s : List Char) (h : nulc ∉ s) : cstr s = s := by
  induction s with
  | nil => rfl
  | cons c t ih =>
    have hc : ¬ c = nulc := by simp at h; tauto
    have ih2 := ih (fun hm => h (List.mem_cons_of_mem c hm))
    simp only [cstr, List.takeWhile_cons] at ih2 ⊢
    simp [hc, ih2]

theorem microOf_exact (q : ℚ) (h : (q * 1000000).den = 1) :
    ((microOf q : ℤ) : ℚ) = q * 1000000 := by
  have hnum : ((q * 1000000).num : ℚ) = q * 1000000 := (Rat.den_eq_one_iff _).mp h
  unfold microOf
  rw [← hnum, round_intCast]

theorem qTrunc_natCast (n : Nat) : qTrunc ((n : ℕ) : ℚ) = (n : ℤ) := by
  unfold qTrunc
  rw [if_pos (by positivity)]
  exact Int.floor_natCast n

/-! ### Round-trip: scalar cases -/

theorem rt_boolean (b : Bool) : RTv (.boolean b) := by
  intro _
  refine ⟨['b', if b then '1' else '0'], ?_, by simp, by cases b <;> decide, ?_⟩
  · intro key st out
    simp [LuaSerializer.pickle]
  · intro env s p rest st2 fu hfu hdrop
    obtain ⟨f, rfl⟩ : ∃ f, fu = f + 1 := ⟨fu - 1, by omega⟩
    have hdrop1 : s.drop p = 'b' :: ((if b then '1' else '0') :: rest) := by
      simpa using hdrop
    have hpeek := peekc_of_drop hdrop1
    have hpeek2 := peekc_of_drop (drop_succ_of_drop hdrop1)
    simp only [unp, hpeek, hpeek2]
    cases b <;> simp

theorem fmtMicro_len_pos (m : Int) : 1 ≤ (fmtMicro m).length := by
  simp [fmtMicro]
  omega

theorem rt_num (q : ℚ) : RTv (.num q) := by
  intro hst
  have hden : (q * 1000000).den = 1 := by cases hst with | num _ h => exact h
  refine ⟨fmtF q, ?_, by simp [fmtF], by simp [fmtF], ?_⟩
  · intro key st out
    simp [LuaSerializer.pickle]
  · intro env s p rest st2 fu hfu hdrop
    obtain ⟨f, rfl⟩ : ∃ f, fu = f + 1 := ⟨fu - 1, by omega⟩
    have hdrop1 : s.drop p = 'f' :: (fmtMicro (microOf q) ++ '\n' :: rest) := by
      simpa [fmtF] using hdrop
    have hpeek := peekc_of_drop hdrop1
    have hstrtod := strtodM_fmt (microOf q) (drop_succ_of_drop hdrop1)
      (by decide) (by decide)
    have hne : ¬ p + 1 = p + 1 + (fmtMicro (microOf q)).length := by
      have := fmtMicro_len_pos (microOf q)
      omega
    have hval : ((microOf q : ℤ) : ℚ) / 1000000 = q := by
      rw [microOf_exact q hden]
      field_simp
    simp only [unp, hpeek, hstrtod, if_pos rfl, if_neg hne, hval]
    have hlen : p + 1 + (fmtMicro (microOf q)).length + 1 = p + (fmtF q).length := by
      simp [fmtF]
      omega
    rw [hlen]
    simp

theorem rt_str (sB : List Char) : RTv (.str sB) := by
  intro hst
  have hnul : nulc ∉ sB := by cases hst with | str _ h => exact h
  have hcs : cstr sB = sB := cstr_of_no_nul sB hnul
  refine ⟨'s' :: natDecChars sB.length ++ '\n' :: sB, ?_, by simp, by simp, ?_⟩
  · intro key st out
    simp [LuaSerializer.pickle, hcs]
  · intro env s p rest st2 fu hfu hdrop
    obtain ⟨f, rfl⟩ : ∃ f, fu = f + 1 := ⟨fu - 1, by omega⟩
    have hdrop1 : s.drop p = 's' :: (natDecChars sB.length ++ '\n' :: (sB ++ rest)) := by
      simpa using hdrop
    have hpeek := peekc_of_drop hdrop1
    have hstrtod := strtodM_nat sB.length (drop_succ_of_drop hdrop1) (by decide) (by decide)
    have hNne := natDecChars_ne_nil sB.length
    have hNlen : 1 ≤ (natDecChars sB.length).length := List.length_pos.mpr hNne
    have hne : ¬ p + 1 = p + 1 + (natDecChars sB.length).length := by omega
    have hplen : p ≤ s.length := le_of_lt (lt_length_of_drop_cons hdrop1)
    have hslen := length_of_drop_append hdrop hplen
    simp only [List.length_cons, List.length_append] at hslen
    have hsdrop2 : ∀ k, k = p + (natDecChars sB.length).length + 2 →
        s.drop k = sB ++ rest := by
      intro k hk
      have hx : s.drop p = ('s' :: (natDecChars sB.length ++ ['\n'])) ++ (sB ++ rest) := by
        simpa using hdrop1
      have h2 := drop_add_of_drop hx
      simp only [List.length_cons, List.length_append, List.length_singleton] at h2
      rw [show k = p + ((natDecChars sB.length).length + 1 + 1) from by omega]
      exact h2
    have htake : takeAt (s ++ [nulc]) (p + 1 + (natDecChars sB.length).length + 1)
        sB.length = sB := by
      unfold takeAt
      have he1le : p + 1 + (natDecChars sB.length).length + 1 ≤ s.length := by omega
      rw [List.drop_append_of_le_length he1le, hsdrop2 _ (by omega), List.append_assoc]
      exact List.take_left' rfl
    have hneInt : ¬ (((sB.length : ℕ) : ℤ) < 0) := by omega
    have hbound : p + 1 + (natDecChars sB.length).length + 1 + sB.length ≤ s.length + 1 := by
      omega
    have hpos : p + 1 + (natDecChars sB.length).length + 1 + sB.length
        = p + ('s' :: (natDecChars sB.length ++ '\n' :: sB)).length := by
      simp
      omega
    simp only [unp, hpeek]
    simp [hstrtod, hne, hneInt, qTrunc_natCast, Int.toNat_natCast, hbound, htake, hpos]
    omega

theorem storable_ne_nil {v : LuaValue} (h : Storable v) : ¬ v = .nil := by
  cases h <;> simp

theorem rt_nil : RTv .nil := fun h => nomatch h

theorem rt_user (u : UData) : RTv (.userdata u) := fun h => nomatch h

theorem rt_other (t : List Char) : RTv (.other t) := fun h => nomatch h

theorem rt_fnil : RTf [] := by
  intro _ _ _
  refine ⟨[], ?_, ?_⟩
  · intro key st out
    simp [LuaSerializer.pickleFields]
  · intro env s p rest acc st2 fu hfu hdrop _
    obtain ⟨f, rfl⟩ : ∃ f, fu = f + 1 := ⟨fu - 1, by omega⟩
    have hdrop1 : s.drop p = 'n' :: rest := by simpa using hdrop
    have hpeek := peekc_of_drop hdrop1
    simp only [unp, hpeek]
    simp

theorem rt_fcons (k v : LuaValue) (r : List (LuaValue × LuaValue))
    (ihk : RTv k) (ihv : RTv v) (ihr : RTf r) : RTf ((k, v) :: r) := by
  intro hks hvs hnd
  have hsk : Storable k := hks (k, v) (by simp)
  have hsv : Storable v := hvs (k, v) (by simp)
  have hnd2 : (k :: r.map Prod.fst).Nodup := by simpa using hnd
  have hndr : (r.map Prod.fst).Nodup := hnd2.of_cons
  have hknotr : k ∉ r.map Prod.fst := by
    have := List.nodup_cons.mp hnd2
    exact this.1
  obtain ⟨bk, hkp, hk1, hkh, hkd⟩ := ihk hsk
  obtain ⟨bv, hvp, hv1, hvh, hvd⟩ := ihv hsv
  obtain ⟨br, hrp, hrd⟩ := ihr (fun kv h => hks kv (by simp [h]))
    (fun kv h => hvs kv (by simp [h])) hndr
  refine ⟨bk ++ bv ++ br, ?_, ?_⟩
  · intro key st out
    cases key with
    | some kx =>
      simp only [LuaSerializer.pickleFields, hkp, hvp, hrp]
      simp [List.append_assoc]
    | none =>
      simp only [LuaSerializer.pickleFields, hkp, hvp, hrp]
      simp [List.append_assoc]
  · intro env s p rest acc st2 fu hfu hdrop hdisj
    obtain ⟨f, rfl⟩ : ∃ f, fu = f + 1 := ⟨fu - 1, by omega⟩
    have hdropk : s.drop p = bk ++ (bv ++ (br ++ 'n' :: rest)) := by
      simpa [List.append_assoc] using hdrop
    obtain ⟨c, bk', hbk⟩ : ∃ c bk', bk = c :: bk' := by
      rcases hx : bk with _ | ⟨c, bk'⟩
      · rw [hx] at hk1; simp at hk1
      · exact ⟨c, bk', rfl⟩
    have hcn : ¬ c = 'n' := by
      rw [hbk] at hkh
      simpa using hkh
    have hpeek : peekc s p = some c := by
      apply peekc_of_drop (r := bk' ++ (bv ++ (br ++ 'n' :: rest)))
      rw [← List.cons_append, ← hbk]
      exact hdropk
    have hkd2 := hkd env s p (bv ++ (br ++ 'n' :: rest)) (.table acc :: st2) f
      (by simp at hfu ⊢; omega) hdropk
    have hdropv : s.drop (p + bk.length) = bv ++ (br ++ 'n' :: rest) :=
      drop_add_of_drop hdropk
    have hvd2 := hvd env s (p + bk.length) (br ++ 'n' :: rest)
      (k :: LuaValue.table acc :: st2) f (by simp at hfu ⊢; omega) hdropv
    have hknil : ¬ k = LuaValue.nil := storable_ne_nil hsk
    have hvnil : ¬ v = LuaValue.nil := storable_ne_nil hsv
    have hany : acc.any (fun e => e.1 == k) = false := by
      rw [List.any_eq_false]
      intro e he
      have := hdisj (k, v) (by simp) e he
      simpa using this
    have hrawset : rawset3 (v :: k :: LuaValue.table acc :: st2)
        = some (LuaValue.table (acc ++ [(k, v)]) :: st2) := by
      simp only [rawset3, if_neg hknil]
      simp [fieldsSet, hvnil, hany]
    have hdropr : s.drop (p + bk.length + bv.length) = br ++ 'n' :: rest := by
      have h2 := drop_add_of_drop hdropv
      exact h2
    have hdisj2 : ∀ kv ∈ r, ∀ e ∈ acc ++ [(k, v)], ¬ e.1 = kv.1 := by
      intro kv hkv e he
      rcases List.mem_append.mp he with he | he
      · exact hdisj kv (by simp [hkv]) e he
      · have he2 : e = (k, v) := by simpa using he
        subst he2
        intro hEq
        have hEq2 : k = kv.1 := by simpa using hEq
        apply hknotr
        rw [hEq2]
        exact List.mem_map_of_mem Prod.fst hkv
    have hrd2 := hrd env s (p + bk.length + bv.length) rest (acc ++ [(k, v)]) st2 f
      (by simp at hfu ⊢; omega) hdropr hdisj2
    simp only [unp, hpeek]
    rw [if_neg hcn]
    simp only [hkd2, hvd2, hrawset, hrd2]
    have hfs : (acc ++ [(k, v)]) ++ r = acc ++ (k, v) :: r := by
      simp
    rw [hfs]
    have hlen : p + bk.length + bv.length + br.length + 1
        = p + (bk ++ (bv ++ br)).length + 1 := by
      simp
      omega
    simp only [List.append_assoc]
    rw [hlen]

theorem rt_table (fs : List (LuaValue × LuaValue)) (ihf : RTf fs) : RTv (.table fs) := by
  intro hst
  obtain ⟨h1, h2, h3⟩ : (∀ kv ∈ fs, Storable kv.1) ∧ (∀ kv ∈ fs, Storable kv.2) ∧
      (fs.map Prod.fst).Nodup := by
    cases hst with | table _ a b c => exact ⟨a, b, c⟩
  obtain ⟨bsF, hPick, hDec⟩ := ihf h1 h2 h3
  refine ⟨'t' :: (bsF ++ ['n']), ?_, by simp, by simp, ?_⟩
  · intro key st out
    have hP := hPick key (LuaValue.nil :: LuaValue.table fs :: st) (out ++ ['t'])
    simp only [LuaSerializer.pickle, hP]
    simp [List.append_assoc]
  · intro env s p rest st2 fu hfu hdrop
    obtain ⟨f, rfl⟩ : ∃ f, fu = f + 1 := ⟨fu - 1, by omega⟩
    have hdrop1 : s.drop p = 't' :: (bsF ++ 'n' :: rest) := by simpa using hdrop
    have hpeek := peekc_of_drop hdrop1
    have hDec2 := hDec env s (p + 1) rest [] st2 f (by simp at hfu ⊢; omega)
      (drop_succ_of_drop hdrop1) (by simp)
    have hpos : p + 1 + bsF.length + 1 = p + ('t' :: (bsF ++ ['n'])).length := by
      simp
      omega
    simp only [unp, hpeek]
    simp [hDec2, hpos]

theorem rt_val : ∀ v : LuaValue, RTv v :=
  LuaValue.ind2 rt_nil rt_num rt_boolean rt_str rt_table rt_user rt_other rt_fnil rt_fcons

/-! ### Encode totality on the supported type set -/

theorem isOk_ok {α : Type} (a : α) : (Except.ok a : Except Fatal α).isOk = true := rfl

theorem isOk_error {α : Type} (e : Fatal) : (Except.error e : Except Fatal α).isOk = false := rfl

theorem supported_table_iff (fs : List (LuaValue × LuaValue)) :
    Supported (.table fs) ↔ ∀ kv ∈ fs, Supported kv.1 ∧ Supported kv.2 := by
  constructor
  · intro h kv hkv
    cases h with | table _ a b => exact ⟨a kv hkv, b kv hkv⟩
  · intro h
    exact Supported.table fs (fun kv hkv => (h kv hkv).1) (fun kv hkv => (h kv hkv).2)

theorem pickle_ok_iff : ∀ v : LuaValue, ∀ key st out,
    (LuaSerializer.pickle key v st out).isOk = true ↔ Supported v := by
  refine LuaValue.ind2
    (P := fun v => ∀ key st out,
      (LuaSerializer.pickle key v st out).isOk = true ↔ Supported v)
    (Q := fun fs => ∀ key st out,
      (LuaSerializer.pickleFields key fs st out).isOk = true ↔
        (∀ kv ∈ fs, Supported kv.1 ∧ Supported kv.2)) ?_ ?_ ?_ ?_ ?_ ?_ ?_ ?_ ?_
  · intro key st out
    simp only [LuaSerializer.pickle, isOk_ok, true_iff]
    exact Supported.nil
  · intro q key st out
    simp only [LuaSerializer.pickle, isOk_ok, true_iff]
    exact Supported.num q
  · intro b key st out
    simp only [LuaSerializer.pickle, isOk_ok, true_iff]
    exact Supported.boolean b
  · intro sB key st out
    simp only [LuaSerializer.pickle, isOk_ok, true_iff]
    exact Supported.str sB
  · intro fs ih key st out
    rw [supported_table_iff, ← ih key (LuaValue.nil :: LuaValue.table fs :: st) (out ++ ['t'])]
    rcases hP : LuaSerializer.pickleFields key fs (LuaValue.nil :: LuaValue.table fs :: st)
        (out ++ ['t']) with e | ⟨o, st2⟩
    · simp [LuaSerializer.pickle, hP, isOk_error]
    · simp [LuaSerializer.pickle, hP, isOk_ok]
  · intro u key st out
    cases u with
    | body n t =>
      simp only [LuaSerializer.pickle, isOk_ok, true_iff]
      exact Supported.ubody n t
    | sbodyPath x y z w =>
      simp only [LuaSerializer.pickle, isOk_ok, true_iff]
      exact Supported.upath x y z w
    | dangling =>
      simp only [LuaSerializer.pickle, isOk_error, Bool.false_eq_true, false_iff]
      intro h
      nomatch h
    | unsupported =>
      simp only [LuaSerializer.pickle, isOk_error, Bool.false_eq_true, false_iff]
      intro h
      nomatch h
  · intro t key st out
    simp only [LuaSerializer.pickle, isOk_error, Bool.false_eq_true, false_iff]
    intro h
    nomatch h
  · intro key st out
    simp [LuaSerializer.pickleFields, isOk_ok]
  · intro k v r ihk ihv ihr key st out
    have hall : (∀ kv ∈ (k, v) :: r, Supported kv.1 ∧ Supported kv.2) ↔
        (Supported k ∧ Supported v ∧ ∀ kv ∈ r, Supported kv.1 ∧ Supported kv.2) := by
      constructor
      · intro h
        exact ⟨(h (k, v) (by simp)).1, (h (k, v) (by simp)).2, fun kv hkv => h kv (by simp [hkv])⟩
      · rintro ⟨h1, h2, h3⟩ kv hkv
        rcases List.mem_cons.mp hkv with h | h
        · subst h; exact ⟨h1, h2⟩
        · exact h3 kv h
    rw [hall]
    cases key with
    | some kx =>
      rcases hk : LuaSerializer.pickle (some kx) k (v :: k :: st.drop 1) out with e | ⟨o1, s1⟩
      · have hks : ¬ Supported k := by
          rw [← ihk (some kx) (v :: k :: st.drop 1) out, hk, isOk_error]
          simp
        simp only [LuaSerializer.pickleFields, hk, isOk_error]
        simp [hks]
      · have hks : Supported k := by
          rw [← ihk (some kx) (v :: k :: st.drop 1) out, hk, isOk_ok]
        rcases hv : LuaSerializer.pickle (some kx) v s1 o1 with e | ⟨o2, s2⟩
        · have hvs : ¬ Supported v := by
            rw [← ihv (some kx) s1 o1, hv, isOk_error]
            simp
          simp only [LuaSerializer.pickleFields, hk, hv, isOk_error]
          simp [hks, hvs]
        · have hvs : Supported v := by
            rw [← ihv (some kx) s1 o1, hv, isOk_ok]
          simp only [LuaSerializer.pickleFields, hk, hv]
          rw [ihr (some kx) (s2.drop 1) o2]
          simp [hks, hvs]
    | none =>
      rcases hk : LuaSerializer.pickle (luaKeyString k) k (k :: (v :: k :: st.drop 1)) out
          with e | ⟨o1, s1⟩
      · have hks : ¬ Supported k := by
          rw [← ihk (luaKeyString k) (k :: (v :: k :: st.drop 1)) out, hk, isOk_error]
          simp
        simp only [LuaSerializer.pickleFields, hk, isOk_error]
        simp [hks]
      · have hks : Supported k := by
          rw [← ihk (luaKeyString k) (k :: (v :: k :: st.drop 1)) out, hk, isOk_ok]
        rcases hv : LuaSerializer.pickle (luaKeyString k) v s1 o1 with e | ⟨o2, s2⟩
        · have hvs : ¬ Supported v := by
            rw [← ihv (luaKeyString k) s1 o1, hv, isOk_error]
            simp
          simp only [LuaSerializer.pickleFields, hk, hv, isOk_error]
          simp [hks, hvs]
        · have hvs : Supported v := by
            rw [← ihv (luaKeyString k) s1 o1, hv, isOk_ok]
          simp only [LuaSerializer.pickleFields, hk, hv]
          rw [ihr none ((s2.drop 1).drop 1) o2]
          simp [hks, hvs]

/-! ### Decoder unfolding equations and stack discipline -/

theorem unp_succ_loop (env : Env) (f : Nat) (s : List Char) (p : Nat) (st : List LuaValue) :
    unp env (f + 1) .loop s p st =
      match peekc s p with
      | none => .ub st
      | some c =>
        if c = 'n' then .ok st (p + 1)
        else
          match unp env f .val s p st with
          | .ok st1 p1 =>
            match unp env f .val s p1 st1 with
            | .ok st2 p2 =>
              match rawset3 st2 with
              | some st3 => unp env f .loop s p2 st3
              | none => .ub st2
            | r => r
          | r => r := rfl

theorem unp_succ_val (env : Env) (f : Nat) (s : List Char) (p : Nat) (st : List LuaValue) :
    unp env (f + 1) .val s p st =
      match peekc s p with
      | none => .ub st
      | some ty =>
        if ty = 'f' then
          match strtodM s (p + 1) with
          | (fv, e) => if p + 1 = e then .corrupt st else .ok (.num fv :: st) (e + 1)
        else if ty = 'b' then
          match peekc s (p + 1) with
          | none => .ub st
          | some c =>
            if ¬ c = '0' ∧ ¬ c = '1' then .corrupt st
            else .ok (.boolean (!(c == '0')) :: st) (p + 1 + 1)
        else if ty = 's' then
          match strtodM s (p + 1) with
          | (lq, e) =>
            if p + 1 = e then .corrupt st
            else
              if qTrunc lq < 0 then .ub st
              else if e + 1 + (qTrunc lq).toNat ≤ s.length + 1 then
                .ok (.str (takeAt (s ++ [nulc]) (e + 1) (qTrunc lq).toNat) :: st)
                  (e + 1 + (qTrunc lq).toNat)
              else .ub st
        else if ty = 't' then
          unp env f .loop s (p + 1) (.table [] :: st)
        else if ty = 'u' then
          match findNl (s.drop (p + 1)) with
          | none => .corrupt st
          | some len =>
            if len == 9 && takeAt s (p + 1) 9 == sbodyLit then
              match strtolM s (p + 1 + len + 1) with
              | (x1, e1) =>
              if p + 1 + len + 1 = e1 then .corrupt st else
              match strtolM s (e1 + 1) with
              | (x2, e2) =>
              if e1 + 1 = e2 then .corrupt st else
              match strtolM s (e2 + 1) with
              | (x3, e3) =>
              if e2 + 1 = e3 then .corrupt st else
              match strtolM s (e3 + 1) with
              | (x4, e4) =>
              if e3 + 1 = e4 then .corrupt st else
              .ok (.userdata (.sbodyPath x1 x2 x3 x4) :: st) (e4 + 1)
            else if len == 4 && takeAt s (p + 1) 4 == bodyLit then
              match strtolM s (p + 1 + len + 1) with
              | (n, e1) =>
              if p + 1 + len + 1 = e1 then .corrupt st else
              if e1 + 1 = e1 then .corrupt st
              else
                match env.lookupBody n with
                | none => .ub st
                | some bt =>
                  match bt with
                  | .otherType => .corrupt st
                  | _ => .ok (.userdata (.body n bt) :: st) (e1 + 1)
            else .corrupt st
        else .corrupt st := rfl

theorem unp_ok_stack : ∀ (fu : Nat) (env : Env) (t : UTask) (s : List Char) (p : Nat)
    (st st2 : List LuaValue) (p2 : Nat), unp env fu t s p st = .ok st2 p2 →
    (t = .val → ∃ v, st2 = v :: st) ∧
    (t = .loop → st2.length = st.length ∧ st2.tail = st.tail) := by
  intro fu
  induction fu with
  | zero =>
    intro env t s p st st2 p2 h
    simp [unp] at h
  | succ f ih =>
    intro env t s p st st2 p2 h
    cases t with
    | val =>
      refine ⟨fun _ => ?_, fun hx => absurd hx (by decide)⟩
      rw [unp_succ_val] at h
      split at h
      · cases h
      rename_i c hpk
      by_cases hf : c = 'f'
      · rw [if_pos hf] at h
        rcases hsd : strtodM s (p + 1) with ⟨fv, e⟩
        simp only [hsd] at h
        by_cases he : p + 1 = e
        · rw [if_pos he] at h; cases h
        · rw [if_neg he] at h; cases h; exact ⟨_, rfl⟩
      rw [if_neg hf] at h
      by_cases hb : c = 'b'
      · rw [if_pos hb] at h
        split at h
        · cases h
        rename_i c2 hpk2
        by_cases hc2 : ¬ c2 = '0' ∧ ¬ c2 = '1'
        · rw [if_pos hc2] at h; cases h
        · rw [if_neg hc2] at h; cases h; exact ⟨_, rfl⟩
      rw [if_neg hb] at h
      by_cases hs : c = 's'
      · rw [if_pos hs] at h
        rcases hsd : strtodM s (p + 1) with ⟨lq, e⟩
        simp only [hsd] at h
        by_cases he : p + 1 = e
        · rw [if_pos he] at h; cases h
        rw [if_neg he] at h
        by_cases hlt : qTrunc lq < 0
        · rw [if_pos hlt] at h; cases h
        rw [if_neg hlt] at h
        by_cases hbd : e + 1 + (qTrunc lq).toNat ≤ s.length + 1
        · rw [if_pos hbd] at h; cases h; exact ⟨_, rfl⟩
        · rw [if_neg hbd] at h; cases h
      rw [if_neg hs] at h
      by_cases ht : c = 't'
      · rw [if_pos ht] at h
        have h2 := (ih env .loop s (p + 1) (LuaValue.table [] :: st) st2 p2 h).2 rfl
        rcases st2 with _ | ⟨w, st2t⟩
        · simp at h2
        · refine ⟨w, ?_⟩
          have h3 : st2t = st := by simpa using h2.2
          rw [h3]
      rw [if_neg ht] at h
      by_cases hu : c = 'u'
      · rw [if_pos hu] at h
        split at h
        · cases h
        rename_i len hnl
        by_cases hsb : (len == 9 && takeAt s (p + 1) 9 == sbodyLit) = true
        · rw [if_pos hsb] at h
          rcases h1 : strtolM s (p + 1 + len + 1) with ⟨x1, e1⟩
          simp only [h1] at h
          by_cases he1 : p + 1 + len + 1 = e1
          · rw [if_pos he1] at h; cases h
          rw [if_neg he1] at h
          rcases h2 : strtolM s (e1 + 1) with ⟨x2, e2⟩
          simp only [h2] at h
          by_cases he2 : e1 + 1 = e2
          · rw [if_pos he2] at h; cases h
          rw [if_neg he2] at h
          rcases h3 : strtolM s (e2 + 1) with ⟨x3, e3⟩
          simp only [h3] at h
          by_cases he3 : e2 + 1 = e3
          · rw [if_pos he3] at h; cases h
          rw [if_neg he3] at h
          rcases h4 : strtolM s (e3 + 1) with ⟨x4, e4⟩
          simp only [h4] at h
          by_cases he4 : e3 + 1 = e4
          · rw [if_pos he4] at h; cases h
          rw [if_neg he4] at h
          cases h; exact ⟨_, rfl⟩
        rw [if_neg hsb] at h
        by_cases hbody : (len == 4 && takeAt s (p + 1) 4 == bodyLit) = true
        · rw [if_pos hbody] at h
          rcases h1 : strtolM s (p + 1 + len + 1) with ⟨n, e1⟩
          simp only [h1] at h
          by_cases he1 : p + 1 + len + 1 = e1
          · rw [if_pos he1] at h; cases h
          rw [if_neg he1] at h
          rw [if_neg (by omega : ¬ e1 + 1 = e1)] at h
          split at h
          · cases h
          rename_i bt hbt
          cases bt <;> simp only [] at h <;> cases h <;> exact ⟨_, rfl⟩
        · rw [if_neg hbody] at h; cases h
      · rw [if_neg hu] at h; cases h
    | loop =>
      refine ⟨fun hx => absurd hx (by decide), fun _ => ?_⟩
      rw [unp_succ_loop] at h
      split at h
      · cases h
      rename_i c hpk
      by_cases hn : c = 'n'
      · rw [if_pos hn] at h
        cases h
        exact ⟨rfl, rfl⟩
      rw [if_neg hn] at h
      rcases h1 : unp env f .val s p st with ⟨st1, p1⟩ | ⟨st1⟩ | ⟨st1⟩ | _ <;>
        simp only [h1] at h <;> try cases h
      rcases h2 : unp env f .val s p1 st1 with ⟨st2x, p2x⟩ | ⟨st2x⟩ | ⟨st2x⟩ | _ <;>
        simp only [h2] at h <;> try cases h
      rcases h3 : rawset3 st2x with _ | st3 <;> simp only [h3] at h
      · cases h
      obtain ⟨a, rfl⟩ := (ih env .val s p st st1 p1 h1).1 rfl
      obtain ⟨b, rfl⟩ := (ih env .val s p1 (a :: st) st2x p2x h2).1 rfl
      rcases st with _ | ⟨s0, strest⟩
      · simp [rawset3] at h3
      cases s0 with
      | table fs =>
        simp only [rawset3] at h3
        by_cases ha : a = LuaValue.nil
        · rw [if_pos ha] at h3; cases h3
        · rw [if_neg ha] at h3
          cases h3
          have h4 := (ih env .loop s p2x
            (LuaValue.table (fieldsSet fs a b) :: strest) st2 p2 h).2 rfl
          simpa using h4
      | nil => simp [rawset3] at h3
      | num q => simp [rawset3] at h3
      | boolean bb => simp [rawset3] at h3
      | str ss => simp [rawset3] at h3
      | userdata uu => simp [rawset3] at h3
      | other tt => simp [rawset3] at h3

/-! ### Encoder stack discipline -/

theorem pickle_stack : ∀ v : LuaValue, ∀ key st out o st2,
    LuaSerializer.pickle key v st out = .ok (o, st2) → st2 = st := by
  refine LuaValue.ind2
    (P := fun v => ∀ key st out o st2,
      LuaSerializer.pickle key v st out = .ok (o, st2) → st2 = st)
    (Q := fun fs => ∀ key st out o st2,
      LuaSerializer.pickleFields key fs st out = .ok (o, st2) → st2 = st.drop 1)
    ?_ ?_ ?_ ?_ ?_ ?_ ?_ ?_ ?_
  · intro key st out o st2 h
    simp only [LuaSerializer.pickle] at h
    cases h; rfl
  · intro q key st out o st2 h
    simp only [LuaSerializer.pickle] at h
    cases h; rfl
  · intro b key st out o st2 h
    simp only [LuaSerializer.pickle] at h
    cases h; rfl
  · intro sB key st out o st2 h
    simp only [LuaSerializer.pickle] at h
    cases h; rfl
  · intro fs ih key st out o st2 h
    rcases hP : LuaSerializer.pickleFields key fs (LuaValue.nil :: LuaValue.table fs :: st)
        (out ++ ['t']) with e | ⟨o1, s1⟩ <;>
      simp only [LuaSerializer.pickle, hP] at h
    · cases h
    · cases h
      have h1 := ih key (LuaValue.nil :: LuaValue.table fs :: st) (out ++ ['t']) o1 s1 hP
      simp [h1]
  · intro u key st out o st2 h
    cases u <;> simp only [LuaSerializer.pickle] at h <;> cases h <;> rfl
  · intro t key st out o st2 h
    simp only [LuaSerializer.pickle] at h
    cases h
  · intro key st out o st2 h
    simp only [LuaSerializer.pickleFields] at h
    cases h; rfl
  · intro k v r ihk ihv ihr key st out o st2 h
    cases key with
    | some kx =>
      rcases hk : LuaSerializer.pickle (some kx) k (v :: k :: st.drop 1) out with e | ⟨o1, s1⟩ <;>
        simp only [LuaSerializer.pickleFields, hk] at h
      · cases h
      rcases hv2 : LuaSerializer.pickle (some kx) v s1 o1 with e | ⟨o2, s2⟩ <;>
        simp only [hv2] at h
      · cases h
      have h1 := ihk (some kx) (v :: k :: st.drop 1) out o1 s1 hk
      have h2 := ihv (some kx) s1 o1 o2 s2 hv2
      have h3 := ihr (some kx) (s2.drop 1) o2 o st2 h
      subst h1; subst h2
      simpa using h3
    | none =>
      rcases hk : LuaSerializer.pickle (luaKeyString k) k (k :: (v :: k :: st.drop 1)) out
          with e | ⟨o1, s1⟩ <;>
        simp only [LuaSerializer.pickleFields, hk] at h
      · cases h
      rcases hv2 : LuaSerializer.pickle (luaKeyString k) v s1 o1 with e | ⟨o2, s2⟩ <;>
        simp only [hv2] at h
      · cases h
      have h1 := ihk (luaKeyString k) (k :: (v :: k :: st.drop 1)) out o1 s1 hk
      have h2 := ihv (luaKeyString k) s1 o1 o2 s2 hv2
      have h3 := ihr none ((s2.drop 1).drop 1) o2 o st2 h
      subst h1; subst h2
      simpa using h3

/-! ### Helper facts for the claims -/

theorem intDecChars_len_pos (N : Int) : 1 ≤ (intDecChars N).length := by
  have h2 : 1 ≤ (natDecChars N.natAbs).length :=
    List.length_pos.mpr (natDecChars_ne_nil N.natAbs)
  unfold intDecChars
  by_cases hm : N < 0 <;> simp [hm] <;> omega

theorem unp_body_decode (env : Env) (N : Int) (bt : BodyType)
    (hbt : ¬ bt = BodyType.otherType) (henv : env.lookupBody N = some bt) :
    ∀ (s : List Char) (p : Nat) (rest : List Char) (st2 : List LuaValue) (fu : Nat),
      ('u' :: bodyLit ++ '\n' :: intDecChars N ++ ['\n']).length + 2 ≤ fu →
      s.drop p = ('u' :: bodyLit ++ '\n' :: intDecChars N ++ ['\n']) ++ rest →
      unp env fu .val s p st2
        = .ok (.userdata (.body N bt) :: st2)
            (p + ('u' :: bodyLit ++ '\n' :: intDecChars N ++ ['\n']).length) := by
  intro s p rest st2 fu hfu hdrop
  obtain ⟨f, rfl⟩ : ∃ f, fu = f + 1 := ⟨fu - 1, by omega⟩
  have hdrop1 : s.drop p = 'u' :: (bodyLit ++ '\n' :: (intDecChars N ++ '\n' :: rest)) := by
    simpa using hdrop
  have hpeek := peekc_of_drop hdrop1
  have hdropP1 : s.drop (p + 1) = bodyLit ++ '\n' :: (intDecChars N ++ '\n' :: rest) :=
    drop_succ_of_drop hdrop1
  have hblen : bodyLit.length = 4 := by decide
  have hfind : findNl (s.drop (p + 1)) = some 4 := by
    rw [hdropP1, findNl_render bodyLit (intDecChars N ++ '\n' :: rest) (by decide) (by decide),
      hblen]
  have htake : takeAt s (p + 1) 4 = bodyLit := by
    unfold takeAt
    rw [hdropP1]
    exact List.take_left' (by decide)
  have hdrop6 : s.drop (p + 1 + 4 + 1) = intDecChars N ++ '\n' :: rest := by
    have hx : s.drop p = ('u' :: bodyLit ++ ['\n']) ++ (intDecChars N ++ '\n' :: rest) := by
      simpa using hdrop1
    have h2 := drop_add_of_drop hx
    have hlen6 : ('u' :: bodyLit ++ ['\n']).length = 6 := by decide
    rw [hlen6] at h2
    rw [show p + 1 + 4 + 1 = p + 6 from by omega]
    exact h2
  have hstrtol : strtolM s (p + 1 + 4 + 1) = (N, p + 1 + 4 + 1 + (intDecChars N).length) :=
    strtolM_render N hdrop6 (by decide)
  have hLpos := intDecChars_len_pos N
  have hne1 : ¬ p + 1 + 4 + 1 = p + 1 + 4 + 1 + (intDecChars N).length := by omega
  have hne2 : ¬ p + 1 + 4 + 1 + (intDecChars N).length + 1
      = p + 1 + 4 + 1 + (intDecChars N).length := by omega
  simp only [unp, hpeek]
  simp only [hfind]
  simp [htake, hstrtol, hne1, hne2, henv]
  cases bt <;> first
    | exact absurd rfl hbt
    | (simp [hblen]; omega)

/-! ### The claims -/

/-- C1.  The spec asserts `decode(encode(v)) == v` with strings byte-exact
including embedded NUL bytes.  The encoder's string branch measures the
payload with `strlen` and appends it as a C string (LuaSerializer.cpp:77-79),
so everything from the first NUL byte on is silently dropped: the string
`"a\x00b"` encodes as a one-byte string and decodes to `"a"`, not to itself.
This theorem exhibits the failure. -/
theorem C1_nul_truncates :
    LuaSerializer.pickle none (.str ['a', nulc, 'b']) [] []
      = .ok ('s' :: '1' :: '\n' :: ['a'], [])
    ∧ LuaSerializer.unpickle env0 ('s' :: '1' :: '\n' :: ['a']) 0 [] = .ok [.str ['a']] 4
    ∧ ¬ (LuaValue.str ['a'] = .str ['a', nulc, 'b']) :=
  ⟨rfl, rfl, by decide⟩

/-- C2.  The spec asserts orphan preservation: a saved container holding
`ModuleA` (registered) and `ModuleB` (unregistered) must, after Unserialize
followed immediately by Serialize, still contain `ModuleB`'s encoded value.
In the code `Serialize` builds a fresh table from the registered callbacks
only (LuaSerializer.cpp:272-292) and `Unserialize` pops the decoded table
without retaining it (line 341), so the reserialized stream has lost
`ModuleB` entirely. -/
theorem C2_orphan_dropped :
    LuaSerializer.Unserialize env0 [⟨"ModuleA".toList, .table []⟩]
        "ts7\nModuleAtns7\nModuleBb1n".toList
      = .ok [("ModuleA".toList, .table [])]
    ∧ LuaSerializer.Serialize [⟨"ModuleA".toList, .table []⟩]
      = .ok "ts7\nModuleAtnn".toList
    ∧ containsSeq "ModuleB".toList "ts7\nModuleAtns7\nModuleBb1n".toList = true
    ∧ containsSeq "ModuleB".toList "ts7\nModuleAtnn".toList = false :=
  ⟨rfl, rfl, rfl, rfl⟩

/-- C3 (amended).  The encoded forms carry no length prefix after the `u`
tag: a Body reference with stable id `N` encodes to the bytes
`uBody\nN\n` (not `u4\nBody\nN\n`) and, whenever the identity table resolves
`N` to a live object of a recognized kind, decodes back to a reference
carrying the same id and that object's kind; the Location reference
`(3, -7, 12, 5)` encodes to `uSBodyPath\n3\n-7\n12\n5\n` (not
`u9\nSBodyPath\n...`) and decodes to an equal reference. -/
theorem C3_reference_roundtrip (env : Env) (N : Int) (bt : BodyType)
    (hbt : ¬ bt = BodyType.otherType) (henv : env.lookupBody N = some bt) :
    (LuaSerializer.pickle none (.userdata (.body N bt)) [] []
        = .ok ('u' :: bodyLit ++ '\n' :: intDecChars N ++ ['\n'], [])
      ∧ LuaSerializer.unpickle env ('u' :: bodyLit ++ '\n' :: intDecChars N ++ ['\n']) 0 []
        = .ok [.userdata (.body N bt)]
            ('u' :: bodyLit ++ '\n' :: intDecChars N ++ ['\n']).length)
    ∧ (LuaSerializer.pickle none (.userdata (.sbodyPath 3 (-7) 12 5)) [] []
        = .ok ("uSBodyPath\n3\n-7\n12\n5\n".toList, [])
      ∧ LuaSerializer.unpickle env0 "uSBodyPath\n3\n-7\n12\n5\n".toList 0 []
        = .ok [.userdata (.sbodyPath 3 (-7) 12 5)] 21) := by
  refine ⟨⟨?_, ?_⟩, rfl, rfl⟩
  · simp [LuaSerializer.pickle]
  · have h := unp_body_decode env N bt hbt henv
      ('u' :: bodyLit ++ '\n' :: intDecChars N ++ ['\n']) 0 [] []
      (('u' :: bodyLit ++ '\n' :: intDecChars N ++ ['\n']).length + 2)
      (by omega) (by simp)
    unfold LuaSerializer.unpickle
    simpa using h

/-- C3 witness: id 5 resolving to a planet in the environment `envP`. -/
theorem C3_reference_roundtrip_witness :
    (LuaSerializer.pickle none (.userdata (.body 5 .planet)) [] []
        = .ok ('u' :: bodyLit ++ '\n' :: intDecChars 5 ++ ['\n'], [])
      ∧ LuaSerializer.unpickle envP ('u' :: bodyLit ++ '\n' :: intDecChars 5 ++ ['\n']) 0 []
        = .ok [.userdata (.body 5 .planet)]
            ('u' :: bodyLit ++ '\n' :: intDecChars 5 ++ ['\n']).length)
    ∧ (LuaSerializer.pickle none (.userdata (.sbodyPath 3 (-7) 12 5)) [] []
        = .ok ("uSBodyPath\n3\n-7\n12\n5\n".toList, [])
      ∧ LuaSerializer.unpickle env0 "uSBodyPath\n3\n-7\n12\n5\n".toList 0 []
        = .ok [.userdata (.sbodyPath 3 (-7) 12 5)] 21) :=
  C3_reference_roundtrip envP 5 .planet (by decide) (by decide)

/-- C3 counterexample to the spec's byte format: the encoder emits no
decimal length between the `u` tag and the kind literal, so the Location
reference `(3, -7, 12, 5)` does not encode to `u9\nSBodyPath\n3\n-7\n12\n5\n`. -/
theorem C3_counterexample_format :
    LuaSerializer.pickle none (.userdata (.sbodyPath 3 (-7) 12 5)) [] []
      = .ok ("uSBodyPath\n3\n-7\n12\n5\n".toList, [])
    ∧ ¬ ("uSBodyPath\n3\n-7\n12\n5\n".toList = "u9\nSBodyPath\n3\n-7\n12\n5\n".toList) :=
  ⟨rfl, by decide⟩

/-- C4.  The spec asserts that an unresolvable Body reference id raises the
catchable corruption condition.  In the code the only guard after
`Serializer::LookupBody(n)` is `if (pos == end)` re-tested after
`pos = end+1` (LuaSerializer.cpp:223-226) — always false — so a null `body`
reaches `body->GetType()`: a null-pointer dereference (undefined behaviour),
not a thrown exception.  Decoding `uBody\n7\n` in an environment with no
live objects hits exactly this path. -/
theorem C4_dead_null_guard :
    LuaSerializer.unpickle env0 "uBody\n7\n".toList 0 [] = .ub []
    ∧ ¬ ((UOut.ub ([] : List LuaValue)) = UOut.corrupt []) :=
  ⟨rfl, by decide⟩

/-- C5.  Of the three inputs the spec lists as raising the corruption
condition, `x` and `u9\nNotAKind\nfoo` do throw it, but `s5\nab` does not:
the string branch performs no bounds check before `lua_pushlstring(l, end,
len)` (LuaSerializer.cpp:170), so the declared five-byte run reads past the
end of the two-byte payload — an out-of-bounds read, not a thrown
exception. -/
theorem C5_corruption_cases :
    LuaSerializer.unpickle env0 "s5\nab".toList 0 [] = .ub []
    ∧ LuaSerializer.unpickle env0 ['x'] 0 [] = .corrupt []
    ∧ LuaSerializer.unpickle env0 "u9\nNotAKind\nfoo".toList 0 [] = .corrupt [] :=
  ⟨rfl, rfl, rfl⟩

/-- C6.  Container order preservation: a table whose entries were inserted
in order `[k1, k2, k3]` (storable entries, structurally distinct keys)
pickles to a chunk that unpickles back to a table listing its fields in
exactly that insertion order — the decoder's `lua_rawset` loop appends each
fresh key in stream order. -/
theorem C6_container_order (k1 k2 k3 v1 v2 v3 : LuaValue)
    (h : Storable (.table [(k1, v1), (k2, v2), (k3, v3)])) :
    ∃ bs : List Char,
      (∀ key st out, LuaSerializer.pickle key (.table [(k1, v1), (k2, v2), (k3, v3)]) st out
         = .ok (out ++ bs, st))
      ∧ ∀ env : Env, LuaSerializer.unpickle env bs 0 []
          = .ok [.table [(k1, v1), (k2, v2), (k3, v3)]] bs.length := by
  obtain ⟨bs, hpick, hlen, hhd, hdec⟩ := rt_val (.table [(k1, v1), (k2, v2), (k3, v3)]) h
  refine ⟨bs, hpick, fun env => ?_⟩
  have hx := hdec env bs 0 [] [] (bs.length + 2) (by omega) (by simp)
  unfold LuaSerializer.unpickle
  simpa using hx

/-- C6 witness: the three-entry table `{a = true, b = false, c = true}`. -/
theorem C6_container_order_witness :
    ∃ bs : List Char,
      (∀ key st out, LuaSerializer.pickle key
          (.table [(.str ['a'], .boolean true), (.str ['b'], .boolean false),
            (.str ['c'], .boolean true)]) st out
         = .ok (out ++ bs, st))
      ∧ ∀ env : Env, LuaSerializer.unpickle env bs 0 []
          = .ok [.table [(.str ['a'], .boolean true), (.str ['b'], .boolean false),
              (.str ['c'], .boolean true)]] bs.length :=
  C6_container_order (.str ['a']) (.str ['b']) (.str ['c'])
    (.boolean true) (.boolean false) (.boolean true) (by
      refine Storable.table _ ?_ ?_ (by decide)
      · intro kv hkv
        simp only [List.mem_cons, List.not_mem_nil, or_false] at hkv
        rcases hkv with rfl | rfl | rfl
        · exact Storable.str _ (by decide)
        · exact Storable.str _ (by decide)
        · exact Storable.str _ (by decide)
      · intro kv hkv
        simp only [List.mem_cons, List.not_mem_nil, or_false] at hkv
        rcases hkv with rfl | rfl | rfl
        · exact Storable.boolean _
        · exact Storable.boolean _
        · exact Storable.boolean _)

/-- C7.  The top-level caller contract of `Unserialize`
(LuaSerializer.cpp:314-316): if the decode cursor does not land exactly at
the end of the buffer, or the decoded top value is not a table, the
corruption condition is raised. -/
theorem C7_toplevel_contract (env : Env) (regs : List ModuleReg) (blob : List Char)
    (st : List LuaValue) (e : Nat)
    (h : LuaSerializer.unpickle env blob 0 [] = .ok st e) :
    (¬ e = blob.length → LuaSerializer.Unserialize env regs blob = .error .corrupt)
    ∧ (∀ v, st = [v] → v.isTable = false →
        LuaSerializer.Unserialize env regs blob = .error .corrupt) := by
  constructor
  · intro hne
    unfold LuaSerializer.Unserialize
    simp only [h]
    rw [if_pos hne]
  · intro v hst hv
    subst hst
    unfold LuaSerializer.Unserialize
    simp only [h]
    by_cases he : e = blob.length
    · rw [if_neg (not_not_intro he)]
      cases v with
      | table fs => simp [LuaValue.isTable] at hv
      | nil => rfl
      | num q => rfl
      | boolean b => rfl
      | str sC => rfl
      | userdata u => rfl
      | other t => rfl
    · rw [if_pos he]

/-- C7 witness: the blob `b1` decodes fully (cursor 2 = length) but its top
value is a boolean, not a table, so `Unserialize` throws corruption. -/
theorem C7_toplevel_contract_witness :
    (¬ (2 : Nat) = ('b' :: ['1'] : List Char).length →
      LuaSerializer.Unserialize env0 [] ('b' :: ['1']) = .error .corrupt)
    ∧ (∀ v, ([LuaValue.boolean true] : List LuaValue) = [v] → v.isTable = false →
        LuaSerializer.Unserialize env0 [] ('b' :: ['1']) = .error .corrupt) :=
  C7_toplevel_contract env0 [] ('b' :: ['1']) [.boolean true] 2 rfl

/-- C8 (amended).  Stack balance holds on the successful paths: every
successful `unpickle` run pushes exactly one value net onto the Lua stack,
and a successful `pickle` returns the stack exactly as it found it.  (On the
throwing paths of `unpickle` the claim is false: see the counterexample.) -/
theorem C8_stack_balance :
    (∀ env s p st st2 p2, LuaSerializer.unpickle env s p st = UOut.ok st2 p2 →
        ∃ v, st2 = v :: st)
    ∧ (∀ key v st out o st2, LuaSerializer.pickle key v st out = .ok (o, st2) → st2 = st) := by
  constructor
  · intro env s p st st2 p2 h
    exact (unp_ok_stack (s.length + 2) env .val s p st st2 p2 h).1 rfl
  · intro key v st out o st2 h
    exact pickle_stack v key st out o st2 h

/-- C8 witness: decoding `b1` pushes exactly the boolean; pickling a boolean
returns the empty stack unchanged. -/
theorem C8_stack_balance_witness :
    (∃ v, ([LuaValue.boolean true] : List LuaValue) = v :: ([] : List LuaValue))
    ∧ (([] : List LuaValue) = []) :=
  ⟨C8_stack_balance.1 env0 ('b' :: ['1']) 0 [] [.boolean true] 2 rfl,
   C8_stack_balance.2 none (.boolean true) [] [] ('b' :: ['1']) [] rfl⟩

/-- C8 counterexample to the original claim: on an error exit the stack is
not balanced.  Decoding `tb0` pushes the fresh table and the boolean, then
throws corruption from inside the table loop (the tag byte after `b0` is
the NUL terminator), leaving both values on the stack — the C++ exception
propagates out of `unpickle` past the pushes of lines 176 and 160. -/
theorem C8_counterexample_unbalanced :
    LuaSerializer.unpickle env0 ('t' :: 'b' :: ['0']) 0 []
      = .corrupt [.boolean false, .table []]
    ∧ ¬ ([LuaValue.boolean false, LuaValue.table []] = ([] : List LuaValue)) :=
  ⟨rfl, by decide⟩

/-- C9.  `pickle` succeeds exactly on the supported type set — nil,
number, boolean, string, tables thereof, and object references that are a
live Body or a Location — and each failure is the fatal diagnostic carrying
the module/key being serialized: a dangling reference id, an unsupported
userdata class, or a value type outside the set. -/
theorem C9_encode_totality :
    (∀ v : LuaValue, ∀ key st out,
      (LuaSerializer.pickle key v st out).isOk = true ↔ Supported v)
    ∧ (∀ key st out, LuaSerializer.pickle key (.userdata .dangling) st out
        = .error ⟨key, .dangling⟩)
    ∧ (∀ key st out, LuaSerializer.pickle key (.userdata .unsupported) st out
        = .error ⟨key, .badUserdata⟩)
    ∧ (∀ key st out ty, LuaSerializer.pickle key (.other ty) st out
        = .error ⟨key, .badType ty⟩) := by
  refine ⟨pickle_ok_iff, ?_, ?_, ?_⟩ <;> intros <;> rfl

/-- C10.  After each decimal field the decoder advances the cursor by one
unconditionally ("skip newline", LuaSerializer.cpp:153, 169, 197-209, 223)
without checking the skipped byte: streams whose separators are not
newlines — unproducible by the encoder — decode successfully instead of
raising corruption, for the float payload, the string length, the Body id,
and the four Location integers alike. -/
theorem C10_separator_unchecked :
    LuaSerializer.unpickle env0 ('f' :: '2' :: ['X']) 0 [] = .ok [.num 2] 3
    ∧ LuaSerializer.unpickle env0 ('s' :: '1' :: 'X' :: ['a']) 0 [] = .ok [.str ['a']] 4
    ∧ LuaSerializer.unpickle envP "uBody\n5*".toList 0 []
        = .ok [.userdata (.body 5 .planet)] 8
    ∧ LuaSerializer.unpickle env0 "uSBodyPath\n1;2;3;4;".toList 0 []
        = .ok [.userdata (.sbodyPath 1 2 3 4)] 19 := by
  refine ⟨?_, rfl, rfl, rfl⟩
  decide
